import Mathlib

/-!
Verification of the stochastic audio-distortion subsystem of resemble-enhance
(`resemble_enhance/data/distorter/custom.py` and `distorter.py`).

Waveforms are modelled as `List ℝ` (exact reals in place of floating point).
Randomness is modelled by passing every random draw (asset index, crop offset,
mixing coefficient, noise vector) as an explicit argument: the Python code draws
them from `random` / `np.random`, and every property quantifies over the draws.
External collaborators (librosa's resampler, the filesystem walk that builds the
asset catalogs, `np.load` / `librosa.load` of asset files) are modelled as
oracle parameters: a resampling function and a pre-loaded catalog of kernels.
-/

namespace ResembleEnhance

noncomputable section

/-- Total energy of a waveform: `np.sum(wav ** 2)`. -/
def energy (w : List ℝ) : ℝ := (w.map (fun x => x ^ 2)).sum

/-- Peak absolute amplitude: `np.max(np.abs(wav))` (0 for the empty waveform,
where numpy would raise; the effects only take the peak of convolution
outputs, which are nonempty whenever the input is). -/
def peak (w : List ℝ) : ℝ := (w.map (fun x => |x|)).foldr max 0

/-- Full linear convolution of two finite signals: entry `k` is
`∑_{i} a[i] * b[k - i]`, output length `a.length + b.length - 1`. -/
def convolveFull (a b : List ℝ) : List ℝ :=
  (List.range (a.length + b.length - 1)).map
    (fun k => ∑ i ∈ Finset.range (k + 1), a.getD i 0 * b.getD (k - i) 0)

/-- `scipy.signal.convolve(a, b, mode="same")`: the centered slice of the full
linear convolution with the same length as the first argument (scipy's offset
is `(len(b) - 1) // 2`). -/
def convolveSame (a b : List ℝ) : List ℝ :=
  ((convolveFull a b).drop ((b.length - 1) / 2)).take a.length

/-- `RandomGaussianNoise.apply` (custom.py lines 79-85) with the random draws
explicit: `noise` is the vector drawn by `np.random.randn(*wav.shape)` (numpy
guarantees it has the input's shape) and `alpha` is the coefficient drawn by
`random.uniform(*self.alpha_range)`.  The noise is rescaled by
`np.sqrt(wav_energy / noise_energy)` and the result is
`wav * alpha + noise * (1 - alpha)`. -/
def gaussianApply (wav noise : List ℝ) (alpha : ℝ) : List ℝ :=
  let noiseEnergy := energy noise
  let wavEnergy := energy wav
  let scaled := noise.map (fun x => x * Real.sqrt (wavEnergy / noiseEnergy))
  List.zipWith (fun w n => w * alpha + n * (1 - alpha)) wav scaled

/-- The divisor of the energy-rescaling division in `RandomGaussianNoise.apply`:
the source computes `np.sqrt(wav_energy / noise_energy)`, so the divisor is the
energy of the drawn noise vector (the `wav` argument records which call site the
divisor belongs to; the divisor itself does not depend on it). -/
def gaussianScaleDivisor (_wav noise : List ℝ) : ℝ :=
  energy noise

/-- The outcome of `RandomRIR.apply`: the returned waveform together with
whether the length-mismatch warning (custom.py lines 63-64) was logged. -/
structure RIROut where
  out : List ℝ
  warned : Bool

/-- The kernel chosen by `RandomRIR._sample_rir` (custom.py lines 30-42) on a
non-empty catalog: the first catalog entry if `deterministic`, otherwise the
entry picked by `random.choice`, whose draw is modelled by the index `idx`
(reduced mod the catalog size, the range `random.choice` draws from). -/
def sampleRir (det : Bool) (rirs : List (List ℝ)) (idx : ℕ) : List ℝ :=
  if det then rirs.getD 0 [] else rirs.getD (idx % rirs.length) []

/-- The intermediate waveform of `RandomRIR.apply` right after the convolution
(custom.py line 55): the input resampled to `rirRate`, convolved in `"same"`
mode with the sampled impulse response.  `resample origSr targetSr wav` is the
oracle for `librosa.resample(wav, orig_sr, target_sr, res_type="kaiser_fast")`
(an external collaborator). -/
def rirConvolved (resample : ℕ → ℕ → List ℝ → List ℝ) (rirRate : ℕ)
    (det : Bool) (rirs : List (List ℝ)) (idx : ℕ) (wav : List ℝ) (sr : ℕ) :
    List ℝ :=
  convolveSame (resample sr rirRate wav) (sampleRir det rirs idx)

/-- The normalization step of `RandomRIR.apply` (custom.py lines 57-59): if the
peak absolute amplitude exceeds 0.99, rescale by `0.98 / peak`
(`wav = (wav / actlev) * 0.98`). -/
def rirNormalize (w : List ℝ) : List ℝ :=
  let actlev := peak w
  if actlev > 0.99 then w.map (fun x => x / actlev * 0.98) else w

/-- The waveform of `RandomRIR.apply` right after resampling back to the
original rate (custom.py line 61), before length reconciliation. -/
def rirResampledBack (resample : ℕ → ℕ → List ℝ → List ℝ) (rirRate : ℕ)
    (det : Bool) (rirs : List (List ℝ)) (idx : ℕ) (wav : List ℝ) (sr : ℕ) :
    List ℝ :=
  resample rirRate sr (rirNormalize (rirConvolved resample rirRate det rirs idx wav sr))

/-- The length-reconciliation step of `RandomRIR.apply` (custom.py lines
66-69): zero-pad on the right if the waveform is shorter than the original
length (`np.pad(wav, (0, length - len(wav)))`), truncate on the right if
longer (`wav[:length]`), otherwise leave it unchanged. -/
def lengthReconcile (length : ℕ) (w : List ℝ) : List ℝ :=
  if w.length < length then w ++ List.replicate (length - w.length) 0
  else if length < w.length then w.take length
  else w

/-- `RandomRIR.apply` (custom.py lines 44-71) with the random draw explicit.
Empty catalog returns the input unchanged; otherwise resample up, convolve,
normalize, resample back, warn if the length drifted by more than 10 samples,
then reconcile the length. -/
def rirApply (resample : ℕ → ℕ → List ℝ → List ℝ) (rirRate : ℕ)
    (det : Bool) (rirs : List (List ℝ)) (idx : ℕ) (wav : List ℝ) (sr : ℕ) :
    RIROut :=
  if rirs.length = 0 then ⟨wav, false⟩
  else
    let length := wav.length
    let w := rirResampledBack resample rirRate det rirs idx wav sr
    let warned := 10 < ((length : ℤ) - w.length).natAbs
    ⟨lengthReconcile length w, warned⟩

/-- The length-alignment step of `RandomWhamNoise.apply` (custom.py lines
116-123): a noise clip shorter than the target is embedded at offset `start`
(0 if deterministic) in a zero buffer of the target length; a longer clip is
cropped to a window of the target length starting at `start`.  The random
draw `start` comes from `random.randint(0, bound)`, which only returns values
in `[0, bound]`; the embedding clamps the modelled draw to that range. -/
def whamAlign (det : Bool) (start : ℕ) (targetLen : ℕ) (noise : List ℝ) :
    List ℝ :=
  if noise.length < targetLen then
    let s := if det then 0 else min start (targetLen - noise.length)
    List.replicate s 0 ++ noise ++ List.replicate (targetLen - s - noise.length) 0
  else if targetLen < noise.length then
    let s := if det then 0 else min start (noise.length - targetLen)
    (noise.drop s).take targetLen
  else noise

/-- The divisor of the energy-rescaling division in `RandomWhamNoise.apply`
(custom.py line 124): `np.sum(noise ** 2) + 1e-7` — the aligned noise's energy
plus the epsilon guard. -/
def whamNoiseDivisor (noise : List ℝ) : ℝ := energy noise + 1e-7

/-- The guarded input energy of `RandomWhamNoise.apply` (custom.py line 125):
`np.sum(wav ** 2) + 1e-7`. -/
def whamWavEnergyEps (wav : List ℝ) : ℝ := energy wav + 1e-7

/-- `RandomWhamNoise.apply` (custom.py lines 108-128) with the random draws
explicit.  The catalog `noises` holds each asset pre-loaded by
`librosa.load(path, sr=None, mono=True)` together with its native rate (both
the filesystem walk and the loader are external collaborators); `idx` models
the `random.choice` draw, `start` the `random.randint` offset draw and `alpha`
the `random.uniform` mixing draw (drawn even in deterministic mode). -/
def whamApply (resample : ℕ → ℕ → List ℝ → List ℝ)
    (det : Bool) (noises : List (List ℝ × ℕ)) (idx start : ℕ) (alpha : ℝ)
    (wav : List ℝ) (sr : ℕ) : List ℝ :=
  if noises.length = 0 then wav
  else
    let asset := if det then noises.getD 0 ([], sr) else noises.getD (idx % noises.length) ([], sr)
    let noise0 := if asset.2 ≠ sr then resample asset.2 sr asset.1 else asset.1
    let noise1 := whamAlign det start wav.length noise0
    let noiseEnergy := whamNoiseDivisor noise1
    let wavEnergy := whamWavEnergyEps wav
    let noise2 := noise1.map (fun x => x * Real.sqrt (wavEnergy / noiseEnergy))
    List.zipWith (fun w n => w * alpha + n * (1 - alpha)) wav noise2

end

/-- Modelled from the spec: the combinator classes `Effect`, `Chain`, `Choice`
and `Permutation` live in `distorter/base.py`, which is not among the provided
sources; per the spec (§4.5) they form a tree of effects — `chain` applies its
children in order, `choice` picks one child according to an optional weight
vector `p` (omitted at one call site in `Distorter.__init__`), `permutation`
applies all children in a random order.  The leaves are the concrete effects
`Distorter.__init__` constructs, with the constructor arguments it passes.
Weights are recorded as exact rationals (the source's float literals `0.8` and
`0.2`). -/
inductive EffectNode where
  | randomRIR (rirDir : Option String) (deterministic : Bool)
  | randomReverb (deterministic : Bool)
  | randomGaussianNoise
  | randomWhamNoise (noiseDir : Option String)
  | randomOverdrive
  | randomEqualizer
  | randomLowpassDistorter
  | randomBandpassDistorter
  | chain (children : List EffectNode)
  | choice (children : List EffectNode) (p : Option (List ℚ))
  | permutation (children : List EffectNode)

/-- The configuration surface `Distorter.__init__` reads from the external
hyperparameter object (`hp.enable_*`, `hp.rir_dir`, `hp.wham_noise_dir`). -/
structure HParams where
  enable_rir : Bool
  rir_dir : Option String
  enable_reverb : Bool
  enable_gaussian_noise : Bool
  enable_wham_noise : Bool
  wham_noise_dir : Option String
  enable_overdrive : Bool
  enable_equalizer : Bool
  enable_filters : Bool

/-- The `effects` list built by `Distorter.__init__` in the training branch
(distorter.py lines 12-31): one leaf per enabled flag, appended in source
order, the `filters` flag contributing a `Choice` (no explicit weights)
between the lowpass and bandpass distorters. -/
def trainingEffects (hp : HParams) : List EffectNode :=
  (if hp.enable_rir then [.randomRIR hp.rir_dir false] else []) ++
  (if hp.enable_reverb then [.randomReverb false] else []) ++
  (if hp.enable_gaussian_noise then [.randomGaussianNoise] else []) ++
  (if hp.enable_wham_noise then [.randomWhamNoise hp.wham_noise_dir] else []) ++
  (if hp.enable_overdrive then [.randomOverdrive] else []) ++
  (if hp.enable_equalizer then [.randomEqualizer] else []) ++
  (if hp.enable_filters then
    [.choice [.randomLowpassDistorter, .randomBandpassDistorter] none] else [])

/-- `Distorter.__init__` (distorter.py lines 7-44): the effect tree the
constructed `Distorter` (itself a `Chain`) applies per call.  Training mode
wraps the `Permutation` of the enabled effects directly for `"denoiser"`, and
in a `Choice` against an empty `Chain` with weights `[0.8, 0.2]` otherwise;
evaluation mode chains only the RIR and reverb effects, each deterministic. -/
def distorterPipeline (hp : HParams) (training : Bool) (mode : String) :
    EffectNode :=
  if training then
    let perm := EffectNode.permutation (trainingEffects hp)
    if mode = "denoiser" then .chain [perm]
    else .chain [.choice [perm, .chain []] (some [0.8, 0.2])]
  else
    .chain ((if hp.enable_rir then [.randomRIR hp.rir_dir true] else []) ++
            (if hp.enable_reverb then [.randomReverb true] else []))

/-! ## Helper lemmas -/

lemma energy_nonneg (w : List ℝ) : 0 ≤ energy w := by
  refine List.sum_nonneg ?_
  intro x hx
  obtain ⟨y, _, rfl⟩ := List.mem_map.mp hx
  positivity

lemma energy_eq_zero (w : List ℝ) (h : ∀ x ∈ w, x = 0) : energy w = 0 := by
  unfold energy
  induction w with
  | nil => simp
  | cons a t ih =>
    have ha : a = 0 := h a (by simp)
    have ht : ∀ x ∈ t, x = 0 := fun x hx => h x (List.mem_cons_of_mem _ hx)
    simp [ha, ih ht]

lemma peak_nonneg (w : List ℝ) : 0 ≤ peak w := by
  unfold peak
  induction w with
  | nil => simp
  | cons a t ih =>
    simp only [List.map_cons, List.foldr_cons]
    exact le_max_of_le_right ih

lemma peak_map_mul (w : List ℝ) (c : ℝ) (hc : 0 ≤ c) :
    peak (w.map (fun x => x * c)) = peak w * c := by
  unfold peak
  induction w with
  | nil => simp
  | cons a t ih =>
    simp only [List.map_cons, List.foldr_cons, ih]
    rw [abs_mul, abs_of_nonneg hc, max_mul_of_nonneg _ _ hc]

lemma foldr_max_abs_replicate (n : ℕ) :
    List.foldr max 0 (List.map (fun x : ℝ => |x|) (List.replicate n 0)) = 0 := by
  induction n with
  | zero => simp
  | succ m ih =>
    rw [List.replicate_succ, List.map_cons, List.foldr_cons, ih]
    simp

lemma peak_append_zeros (w : List ℝ) (n : ℕ) :
    peak (w ++ List.replicate n 0) = peak w := by
  unfold peak
  rw [List.map_append, List.foldr_append, foldr_max_abs_replicate]

lemma peak_take_le (w : List ℝ) (n : ℕ) : peak (w.take n) ≤ peak w := by
  induction w generalizing n with
  | nil => simp [peak]
  | cons a t ih =>
    cases n with
    | zero =>
      have h0 : peak (List.take 0 (a :: t)) = 0 := rfl
      rw [h0]
      exact peak_nonneg (a :: t)
    | succ m =>
      simp only [List.take_succ_cons]
      unfold peak
      simp only [List.map_cons, List.foldr_cons]
      exact max_le_max le_rfl (ih m)

lemma lengthReconcile_length (length : ℕ) (w : List ℝ) :
    (lengthReconcile length w).length = length := by
  unfold lengthReconcile
  split_ifs with h1 h2
  · simp only [List.length_append, List.length_replicate]
    omega
  · simp only [List.length_take]
    omega
  · omega

lemma peak_lengthReconcile_le (length : ℕ) (w : List ℝ) :
    peak (lengthReconcile length w) ≤ peak w := by
  unfold lengthReconcile
  split_ifs with h1 h2
  · rw [peak_append_zeros]
  · exact peak_take_le w length
  · exact le_rfl

lemma whamAlign_length (det : Bool) (start targetLen : ℕ) (noise : List ℝ) :
    (whamAlign det start targetLen noise).length = targetLen := by
  unfold whamAlign
  by_cases h1 : noise.length < targetLen
  · rw [if_pos h1]
    cases det <;>
      simp only [Bool.false_eq_true, if_false, if_true, List.length_append,
        List.length_replicate] <;> omega
  · rw [if_neg h1]
    by_cases h2 : targetLen < noise.length
    · rw [if_pos h2]
      cases det <;>
        simp only [Bool.false_eq_true, if_false, if_true, List.length_take,
          List.length_drop] <;> omega
    · rw [if_neg h2]
      omega

lemma zipWith_mix_one (w s : List ℝ) (h : w.length ≤ s.length) :
    List.zipWith (fun a b => a * 1 + b * (1 - 1)) w s = w := by
  induction w generalizing s with
  | nil => simp
  | cons a t ih =>
    cases s with
    | nil => simp at h
    | cons b u =>
      simp only [List.zipWith_cons_cons, List.cons.injEq]
      constructor
      · ring
      · exact ih u (by simpa using h)

lemma zipWith_mix_zero (w s : List ℝ) (h : s.length ≤ w.length) :
    List.zipWith (fun a b => a * 0 + b * (1 - 0)) w s = s := by
  induction w generalizing s with
  | nil =>
    cases s with
    | nil => simp
    | cons b u => simp at h
  | cons a t ih =>
    cases s with
    | nil => simp
    | cons b u =>
      simp only [List.zipWith_cons_cons, List.cons.injEq]
      constructor
      · ring
      · exact ih u (by simpa using h)

lemma zipWith_mix_zero_left (w s : List ℝ) (alpha : ℝ)
    (hw : ∀ x ∈ w, x = 0) (hs : ∀ x ∈ s, x = 0) :
    List.zipWith (fun a b => a * alpha + b * (1 - alpha)) w s =
      List.replicate (min w.length s.length) 0 := by
  induction w generalizing s with
  | nil => simp
  | cons a t ih =>
    cases s with
    | nil => simp
    | cons b u =>
      have ha : a = 0 := hw a (by simp)
      have hb : b = 0 := hs b (by simp)
      simp only [List.zipWith_cons_cons, List.length_cons]
      rw [ha, hb]
      have : min (t.length + 1) (u.length + 1) = min t.length u.length + 1 := by
        omega
      rw [this, List.replicate_succ, List.cons.injEq]
      constructor
      · ring
      · exact ih u (fun x hx => hw x (List.mem_cons_of_mem _ hx))
          (fun x hx => hs x (List.mem_cons_of_mem _ hx))

/-! ## Claim theorems -/

/-- C1: for every effect among RandomRIR, RandomGaussianNoise and
RandomWhamNoise, and every input waveform and sample rate (quantifying over
the resampling oracle, the asset catalogs and all random draws; the Gaussian
noise vector has the input's shape, as `np.random.randn(*wav.shape)`
guarantees), the waveform returned by apply has the same length as the
input. -/
theorem length_invariance (resample : ℕ → ℕ → List ℝ → List ℝ)
    (rirRate : ℕ) (det : Bool) (rirs : List (List ℝ))
    (noises : List (List ℝ × ℕ)) (idx start : ℕ) (noise wav : List ℝ)
    (alpha : ℝ) (sr : ℕ) (hnoise : noise.length = wav.length) :
    (rirApply resample rirRate det rirs idx wav sr).out.length = wav.length ∧
    (gaussianApply wav noise alpha).length = wav.length ∧
    (whamApply resample det noises idx start alpha wav sr).length =
      wav.length := by
  refine ⟨?_, ?_, ?_⟩
  · unfold rirApply
    by_cases h0 : rirs.length = 0
    · rw [if_pos h0]
    · rw [if_neg h0]
      exact lengthReconcile_length _ _
  · unfold gaussianApply
    simp [hnoise]
  · unfold whamApply
    by_cases h0 : noises.length = 0
    · rw [if_pos h0]
    · rw [if_neg h0]
      simp [whamAlign_length]

/-- C1 witness: the length invariance at a concrete input. -/
theorem length_invariance_witness :
    ([(5 : ℝ)] : List ℝ).length = ([(7 : ℝ)] : List ℝ).length ∧
    ((rirApply (fun _ _ x => x) 44000 false [[1]] 0 [(7 : ℝ)] 44100).out.length =
        ([(7 : ℝ)] : List ℝ).length ∧
      (gaussianApply [(7 : ℝ)] [(5 : ℝ)] (1 / 2)).length =
        ([(7 : ℝ)] : List ℝ).length ∧
      (whamApply (fun _ _ x => x) false [([1], 44100)] 0 0 (1 / 2) [(7 : ℝ)]
          44100).length = ([(7 : ℝ)] : List ℝ).length) :=
  ⟨by simp,
   length_invariance (fun _ _ x => x) 44000 false [[1]] [([1], 44100)] 0 0
     [(5 : ℝ)] [(7 : ℝ)] (1 / 2) 44100 (by simp)⟩

/-- C3: with an empty asset catalog (empty or missing asset directory, both
of which make the cached path list empty), RandomRIR.apply and
RandomWhamNoise.apply return the input waveform unchanged — and in
particular emit no warning and raise no error. -/
theorem empty_catalog_identity (resample : ℕ → ℕ → List ℝ → List ℝ)
    (rirRate : ℕ) (det : Bool) (idx start : ℕ) (alpha : ℝ)
    (wav : List ℝ) (sr : ℕ) :
    (rirApply resample rirRate det ([] : List (List ℝ)) idx wav sr).out = wav ∧
    (rirApply resample rirRate det ([] : List (List ℝ)) idx wav sr).warned =
      false ∧
    whamApply resample det ([] : List (List ℝ × ℕ)) idx start alpha wav sr =
      wav := by
  refine ⟨?_, ?_, ?_⟩ <;> simp [rirApply, whamApply]

/-- C8: the energy-rescaling division of RandomWhamNoise.apply adds the
epsilon 1e-7 to both energies, so for every input waveform (including an
all-zero one) and every aligned noise the divisor is strictly positive. -/
theorem wham_epsilon_guard (noise wav : List ℝ) :
    0 < whamNoiseDivisor noise ∧ 0 < whamWavEnergyEps wav := by
  constructor
  · have h := energy_nonneg noise
    unfold whamNoiseDivisor
    nlinarith [show (0 : ℝ) < 1e-7 by norm_num]
  · have h := energy_nonneg wav
    unfold whamWavEnergyEps
    nlinarith [show (0 : ℝ) < 1e-7 by norm_num]

/-- C9: a Distorter constructed with training=True and mode="enhancer"
applies, per call, a Choice between the Permutation of the enabled effects
and an empty identity Chain, with weights 0.8 and 0.2 (wrapped in the
Distorter's own Chain). -/
theorem enhancer_pipeline (hp : HParams) :
    distorterPipeline hp true "enhancer" =
      EffectNode.chain
        [EffectNode.choice
          [EffectNode.permutation (trainingEffects hp), EffectNode.chain []]
          (some [0.8, 0.2])] := by
  rfl

/-- C4 counterexample: the claim says the rescaling division of
RandomGaussianNoise.apply divides by the input's energy, so that an all-zero
input gives a zero divisor.  At the silent input [0, 0] with drawn noise
[1, 1], the divisor of `np.sqrt(wav_energy / noise_energy)` is the noise
energy 2, not the input's energy 0 — no division by zero occurs. -/
theorem gaussian_divisor_counterexample :
    gaussianScaleDivisor [0, 0] [1, 1] = 2 ∧
    energy ([0, 0] : List ℝ) = 0 ∧ (2 : ℝ) ≠ 0 := by
  refine ⟨?_, ?_, by norm_num⟩
  · unfold gaussianScaleDivisor energy
    norm_num
  · unfold energy
    norm_num

/-- C4 amended: in RandomGaussianNoise.apply's rescaling
`np.sqrt(wav_energy / noise_energy)` the divisor is the drawn noise's energy,
not the input's; for an all-zero input and any drawn noise of nonzero energy
the divisor is nonzero and the scale factor is zero, so silent input causes
no division by zero (a zero divisor would instead require the drawn noise
itself to have zero energy). -/
theorem gaussian_divisor_amended (wav noise : List ℝ)
    (hwav : ∀ x ∈ wav, x = 0) (hnoise : energy noise ≠ 0) :
    gaussianScaleDivisor wav noise ≠ 0 ∧
    Real.sqrt (energy wav / gaussianScaleDivisor wav noise) = 0 := by
  constructor
  · exact hnoise
  · rw [energy_eq_zero wav hwav]
    unfold gaussianScaleDivisor
    simp

/-- C4 witness: the amended statement at the silent input [0, 0] and noise
[1, 1]. -/
theorem gaussian_divisor_amended_witness :
    (∀ x ∈ ([0, 0] : List ℝ), x = 0) ∧ energy ([1, 1] : List ℝ) ≠ 0 ∧
    (gaussianScaleDivisor [0, 0] [1, 1] ≠ 0 ∧
      Real.sqrt (energy ([0, 0] : List ℝ) /
        gaussianScaleDivisor [0, 0] [1, 1]) = 0) :=
  ⟨by simp, by unfold energy; norm_num,
   gaussian_divisor_amended [0, 0] [1, 1] (by simp)
     (by unfold energy; norm_num)⟩

/-- C10: for an all-zero input waveform, any drawn Gaussian noise vector of
the input's shape and nonzero energy, and any alpha, RandomGaussianNoise.apply
returns the all-zero waveform of the input's length: the rescaling factor
sqrt(0 / noise_energy) is zero, so the noise term vanishes, and the divisor
(the noise energy) is nonzero. -/
theorem gaussian_silent_input (wav noise : List ℝ) (alpha : ℝ)
    (hwav : ∀ x ∈ wav, x = 0) (hnoise : energy noise ≠ 0)
    (hlen : noise.length = wav.length) :
    gaussianApply wav noise alpha = List.replicate wav.length 0 ∧
    gaussianScaleDivisor wav noise ≠ 0 := by
  refine ⟨?_, hnoise⟩
  unfold gaussianApply
  have hE : energy wav = 0 := energy_eq_zero wav hwav
  have hsqrt : Real.sqrt (energy wav / energy noise) = 0 := by
    rw [hE]
    simp
  have hscaled : ∀ x ∈ noise.map
      (fun x => x * Real.sqrt (energy wav / energy noise)), x = 0 := by
    intro x hx
    obtain ⟨y, _, rfl⟩ := List.mem_map.mp hx
    rw [hsqrt, mul_zero]
  have h := zipWith_mix_zero_left wav
    (noise.map (fun x => x * Real.sqrt (energy wav / energy noise)))
    alpha hwav hscaled
  simp only [List.length_map, hlen, min_self] at h
  exact h

/-- C10 witness: silent input [0, 0] with noise [1, 1] and alpha 1/2 stays
silent. -/
theorem gaussian_silent_input_witness :
    (∀ x ∈ ([0, 0] : List ℝ), x = 0) ∧ energy ([1, 1] : List ℝ) ≠ 0 ∧
    ([1, 1] : List ℝ).length = ([0, 0] : List ℝ).length ∧
    (gaussianApply [0, 0] [1, 1] (1 / 2) =
        List.replicate ([0, 0] : List ℝ).length 0 ∧
      gaussianScaleDivisor [0, 0] [1, 1] ≠ 0) :=
  ⟨by simp, by unfold energy; norm_num, by simp,
   gaussian_silent_input [0, 0] [1, 1] (1 / 2) (by simp)
     (by unfold energy; norm_num) (by simp)⟩

/-- C7: RandomGaussianNoise.apply rescales the drawn noise so its energy
equals the input's and returns `alpha * wav + (1 - alpha) * noise`; for any
input of nonzero energy and any drawn noise already energy-matched to it,
alpha = 1 returns the input unchanged and alpha = 0 returns the
energy-matched noise unchanged (whose energy is the input's). -/
theorem gaussian_energy_matched_mix (wav noise : List ℝ)
    (hlen : noise.length = wav.length) (hE : energy noise = energy wav)
    (hne : energy wav ≠ 0) :
    gaussianApply wav noise 1 = wav ∧
    gaussianApply wav noise 0 = noise ∧
    energy (gaussianApply wav noise 0) = energy wav := by
  have hscale : Real.sqrt (energy wav / energy noise) = 1 := by
    rw [hE, div_self hne, Real.sqrt_one]
  have hmap : noise.map (fun x => x * Real.sqrt (energy wav / energy noise)) =
      noise := by
    rw [hscale]
    simp
  have h0 : gaussianApply wav noise 0 = noise := by
    unfold gaussianApply
    simp only [hmap]
    exact zipWith_mix_zero wav noise (le_of_eq hlen)
  refine ⟨?_, h0, ?_⟩
  · unfold gaussianApply
    simp only [hmap]
    exact zipWith_mix_one wav noise (le_of_eq hlen.symm)
  · rw [h0, hE]

/-- C7 witness: the spec's scenario wav = [1, -1, 1, -1] (energy 4) with an
energy-matched noise [2, 0, 0, 0] (energy 4). -/
theorem gaussian_energy_matched_mix_witness :
    ([2, 0, 0, 0] : List ℝ).length = ([1, -1, 1, -1] : List ℝ).length ∧
    energy ([2, 0, 0, 0] : List ℝ) = energy ([1, -1, 1, -1] : List ℝ) ∧
    energy ([1, -1, 1, -1] : List ℝ) ≠ 0 ∧
    (gaussianApply [1, -1, 1, -1] [2, 0, 0, 0] 1 = [1, -1, 1, -1] ∧
      gaussianApply [1, -1, 1, -1] [2, 0, 0, 0] 0 = [2, 0, 0, 0] ∧
      energy (gaussianApply [1, -1, 1, -1] [2, 0, 0, 0] 0) =
        energy ([1, -1, 1, -1] : List ℝ)) :=
  ⟨by simp, by unfold energy; norm_num, by unfold energy; norm_num,
   gaussian_energy_matched_mix [1, -1, 1, -1] [2, 0, 0, 0] (by simp)
     (by unfold energy; norm_num) (by unfold energy; norm_num)⟩

/-- C5: in RandomRIR.apply with a non-empty catalog, the non-fatal warning is
emitted exactly when the waveform resampled back to the original rate is more
than 10 samples off the original length; then the output is the resampled
waveform zero-padded on the right if shorter, truncated on the right if
longer, and in every case of exactly the original length. -/
theorem rir_length_reconciliation (resample : ℕ → ℕ → List ℝ → List ℝ)
    (rirRate : ℕ) (det : Bool) (rirs : List (List ℝ)) (idx : ℕ)
    (wav : List ℝ) (sr : ℕ) (hcat : rirs.length ≠ 0) :
    ((rirApply resample rirRate det rirs idx wav sr).warned = true ↔
      10 < ((wav.length : ℤ) -
        (rirResampledBack resample rirRate det rirs idx wav sr).length).natAbs) ∧
    ((rirResampledBack resample rirRate det rirs idx wav sr).length <
        wav.length →
      (rirApply resample rirRate det rirs idx wav sr).out =
        rirResampledBack resample rirRate det rirs idx wav sr ++
          List.replicate (wav.length -
            (rirResampledBack resample rirRate det rirs idx wav sr).length) 0) ∧
    (wav.length <
        (rirResampledBack resample rirRate det rirs idx wav sr).length →
      (rirApply resample rirRate det rirs idx wav sr).out =
        (rirResampledBack resample rirRate det rirs idx wav sr).take
          wav.length) ∧
    (rirApply resample rirRate det rirs idx wav sr).out.length =
      wav.length := by
  have happ : rirApply resample rirRate det rirs idx wav sr =
      ⟨lengthReconcile wav.length
        (rirResampledBack resample rirRate det rirs idx wav sr),
       decide (10 < ((wav.length : ℤ) -
         (rirResampledBack resample rirRate det rirs idx wav sr).length).natAbs)⟩ := by
    unfold rirApply
    rw [if_neg hcat]
  rw [happ]
  refine ⟨by simp, ?_, ?_, lengthReconcile_length _ _⟩
  · intro h
    unfold lengthReconcile
    rw [if_pos h]
  · intro h
    unfold lengthReconcile
    rw [if_neg (by omega), if_pos h]

/-- C5 witness: the reconciliation at a concrete input (identity resampling
oracle, catalog [[1]], input [2]). -/
theorem rir_length_reconciliation_witness :
    ([[(1 : ℝ)]] : List (List ℝ)).length ≠ 0 ∧
    (((rirApply (fun _ _ x => x) 44000 false [[1]] 0 [(2 : ℝ)] 44100).warned =
          true ↔
        10 < ((([(2 : ℝ)] : List ℝ).length : ℤ) -
          (rirResampledBack (fun _ _ x => x) 44000 false [[1]] 0 [(2 : ℝ)]
            44100).length).natAbs) ∧
      ((rirResampledBack (fun _ _ x => x) 44000 false [[1]] 0 [(2 : ℝ)]
            44100).length < ([(2 : ℝ)] : List ℝ).length →
        (rirApply (fun _ _ x => x) 44000 false [[1]] 0 [(2 : ℝ)] 44100).out =
          rirResampledBack (fun _ _ x => x) 44000 false [[1]] 0 [(2 : ℝ)]
              44100 ++
            List.replicate (([(2 : ℝ)] : List ℝ).length -
              (rirResampledBack (fun _ _ x => x) 44000 false [[1]] 0 [(2 : ℝ)]
                44100).length) 0) ∧
      (([(2 : ℝ)] : List ℝ).length <
          (rirResampledBack (fun _ _ x => x) 44000 false [[1]] 0 [(2 : ℝ)]
            44100).length →
        (rirApply (fun _ _ x => x) 44000 false [[1]] 0 [(2 : ℝ)] 44100).out =
          (rirResampledBack (fun _ _ x => x) 44000 false [[1]] 0 [(2 : ℝ)]
            44100).take ([(2 : ℝ)] : List ℝ).length) ∧
      (rirApply (fun _ _ x => x) 44000 false [[1]] 0 [(2 : ℝ)] 44100).out.length =
        ([(2 : ℝ)] : List ℝ).length) :=
  ⟨by simp,
   rir_length_reconciliation (fun _ _ x => x) 44000 false [[1]] 0 [(2 : ℝ)]
     44100 (by simp)⟩

/-- C6: whenever the post-convolution peak of RandomRIR exceeds 0.99, the
normalization step rescales the signal by 0.98 divided by that peak, and —
for every resampling oracle that does not increase the peak absolute
amplitude (the floating-point tolerance the spec grants the external
resampler) — the peak of the waveform returned by apply is at most 0.98. -/
theorem rir_no_clip (resample : ℕ → ℕ → List ℝ → List ℝ)
    (rirRate : ℕ) (det : Bool) (rirs : List (List ℝ)) (idx : ℕ)
    (wav : List ℝ) (sr : ℕ)
    (hres : ∀ o t x, peak (resample o t x) ≤ peak x)
    (hpeak : 0.99 < peak (rirConvolved resample rirRate det rirs idx wav sr))
    (hcat : rirs.length ≠ 0) :
    rirNormalize (rirConvolved resample rirRate det rirs idx wav sr) =
      (rirConvolved resample rirRate det rirs idx wav sr).map
        (fun x => x /
          peak (rirConvolved resample rirRate det rirs idx wav sr) * 0.98) ∧
    peak (rirApply resample rirRate det rirs idx wav sr).out ≤ 0.98 := by
  have ha : (0 : ℝ) <
      peak (rirConvolved resample rirRate det rirs idx wav sr) := by
    linarith
  have hnorm : rirNormalize (rirConvolved resample rirRate det rirs idx wav sr) =
      (rirConvolved resample rirRate det rirs idx wav sr).map
        (fun x => x /
          peak (rirConvolved resample rirRate det rirs idx wav sr) * 0.98) := by
    unfold rirNormalize
    rw [if_pos hpeak]
  refine ⟨hnorm, ?_⟩
  have hfun : (fun x : ℝ => x /
        peak (rirConvolved resample rirRate det rirs idx wav sr) * 0.98) =
      (fun x : ℝ => x *
        (0.98 / peak (rirConvolved resample rirRate det rirs idx wav sr))) := by
    funext x
    rw [div_mul_eq_mul_div, mul_div_assoc]
  have hpeaknorm :
      peak (rirNormalize (rirConvolved resample rirRate det rirs idx wav sr)) =
        0.98 := by
    rw [hnorm, hfun, peak_map_mul _ _ (by positivity),
      mul_comm, div_mul_cancel₀ _ (ne_of_gt ha)]
  have happ : rirApply resample rirRate det rirs idx wav sr =
      ⟨lengthReconcile wav.length
        (rirResampledBack resample rirRate det rirs idx wav sr),
       decide (10 < ((wav.length : ℤ) -
         (rirResampledBack resample rirRate det rirs idx wav sr).length).natAbs)⟩ := by
    unfold rirApply
    rw [if_neg hcat]
  rw [happ]
  calc peak (lengthReconcile wav.length
        (rirResampledBack resample rirRate det rirs idx wav sr)) ≤
      peak (rirResampledBack resample rirRate det rirs idx wav sr) :=
        peak_lengthReconcile_le _ _
    _ ≤ peak (rirNormalize (rirConvolved resample rirRate det rirs idx wav sr)) :=
        hres _ _ _
    _ = 0.98 := hpeaknorm

/-- C6 witness: the no-clip bound at a concrete input (identity resampling
oracle, kernel [1], resampled input [2], post-convolution peak 2 > 0.99). -/
theorem rir_no_clip_witness :
    (0.99 : ℝ) <
      peak (rirConvolved (fun _ _ x => x) 44000 false [[1]] 0 [(2 : ℝ)]
        44100) ∧
    ([[(1 : ℝ)]] : List (List ℝ)).length ≠ 0 ∧
    (rirNormalize (rirConvolved (fun _ _ x => x) 44000 false [[1]] 0
        [(2 : ℝ)] 44100) =
      (rirConvolved (fun _ _ x => x) 44000 false [[1]] 0 [(2 : ℝ)]
          44100).map
        (fun x => x /
          peak (rirConvolved (fun _ _ x => x) 44000 false [[1]] 0 [(2 : ℝ)]
            44100) * 0.98) ∧
      peak (rirApply (fun _ _ x => x) 44000 false [[1]] 0 [(2 : ℝ)]
        44100).out ≤ 0.98) :=
  ⟨by
    unfold rirConvolved convolveSame convolveFull sampleRir peak
    norm_num [List.range_succ, Finset.sum_range_one],
   by simp,
   rir_no_clip (fun _ _ x => x) 44000 false [[1]] 0 [(2 : ℝ)] 44100
     (fun _ _ x => le_refl (peak x))
     (by
       unfold rirConvolved convolveSame convolveFull sampleRir peak
       norm_num [List.range_succ, Finset.sum_range_one])
     (by simp)⟩

/-- C2 counterexample: two calls of RandomWhamNoise.apply constructed with
deterministic=True over the same non-empty catalog (one noise clip [2] at the
target rate) on the same input [0] differ when the two calls draw different
mixing coefficients (4/5 and 9/10, both inside the default alpha range): the
deterministic flag fixes the asset choice and the offset but alpha is still
drawn by random.uniform on every call. -/
theorem wham_det_counterexample :
    whamApply (fun _ _ x => x) true [([2], 44100)] 0 0 (4 / 5) [0] 44100 ≠
      whamApply (fun _ _ x => x) true [([2], 44100)] 0 0 (9 / 10) [0]
        44100 := by
  have hs : 0 < Real.sqrt (whamWavEnergyEps [0] / whamNoiseDivisor [2]) := by
    apply Real.sqrt_pos.mpr
    apply div_pos
    · unfold whamWavEnergyEps energy
      norm_num
    · unfold whamNoiseDivisor energy
      norm_num
  unfold whamApply whamAlign
  norm_num
  intro h
  nlinarith [hs, h]

/-- C2 amended: with deterministic=True, RandomRIR.apply is independent of
its only random draw (the asset index), so two calls on the same input yield
identical output; RandomWhamNoise.apply is independent of the asset-index and
offset draws, but still depends on the alpha drawn by random.uniform on every
call, so two calls yield identical output exactly when the alpha draws
coincide (here expressed by giving both calls the same alpha). -/
theorem deterministic_draw_independence (resample : ℕ → ℕ → List ℝ → List ℝ)
    (rirRate : ℕ) (rirs : List (List ℝ)) (noises : List (List ℝ × ℕ))
    (idx1 idx2 start1 start2 : ℕ) (alpha : ℝ) (wav : List ℝ) (sr : ℕ) :
    rirApply resample rirRate true rirs idx1 wav sr =
      rirApply resample rirRate true rirs idx2 wav sr ∧
    whamApply resample true noises idx1 start1 alpha wav sr =
      whamApply resample true noises idx2 start2 alpha wav sr := by
  constructor
  · unfold rirApply rirResampledBack rirConvolved sampleRir
    simp
  · unfold whamApply whamAlign
    simp

end ResembleEnhance
